import Mathlib

/-!
# Verification of the backtester / adaptive weight engine

A shallow embedding of `core/backtester.py`: the signal ledger
(`SignalHistory`), the evolutionary weight optimizer (`WeightOptimizer`)
and the adaptive scorer (`AdaptiveEntryScorer`), together with proofs of
the specified properties.

Python floats are modelled as rationals (`ℚ`); Python's `round(x, n)` is
modelled as rounding `x * 10^n` to the nearest integer.  Python `dict`s
(insertion ordered, unique keys) are modelled as association lists where
assignment replaces the first matching key in place and otherwise appends.
-/

namespace Backtester

/-! ## Dictionary model -/

/-- `d.get(k, dflt)` on a Python dict, as an association-list lookup. -/
def lookup? {α : Type} (d : List (String × α)) (k : String) : Option α :=
  (d.find? (fun p => p.1 == k)).map (fun p => p.2)

/-- `d.get(k, dflt)`: lookup with a default value. -/
def getD {α : Type} (d : List (String × α)) (k : String) (dflt : α) : α :=
  (lookup? d k).getD dflt

/-- `d[k] = v` on a Python dict: replace the first binding of `k` in place,
otherwise append a new binding at the end. -/
def dictSet {α : Type} (d : List (String × α)) (k : String) (v : α) :
    List (String × α) :=
  match d with
  | [] => [(k, v)]
  | p :: rest => if p.1 == k then (k, v) :: rest else p :: dictSet rest k v

theorem lookup?_nil {α : Type} (k : String) : lookup? ([] : List (String × α)) k = none :=
  rfl

theorem lookup?_cons {α : Type} (p : String × α) (rest : List (String × α)) (k : String) :
    lookup? (p :: rest) k = if p.1 = k then some p.2 else lookup? rest k := by
  by_cases h : p.1 = k
  · simp [lookup?, List.find?_cons_of_pos, h]
  · simp [lookup?, List.find?_cons_of_neg, h]

theorem dictSet_cons {α : Type} (p : String × α) (rest : List (String × α))
    (k : String) (v : α) :
    dictSet (p :: rest) k v = if p.1 = k then (k, v) :: rest else p :: dictSet rest k v := by
  by_cases h : p.1 = k <;> simp [dictSet, h]

theorem lookup?_dictSet_self {α : Type} (d : List (String × α)) (k : String) (v : α) :
    lookup? (dictSet d k v) k = some v := by
  induction d with
  | nil => simp [dictSet, lookup?_cons]
  | cons p rest ih =>
    by_cases h : p.1 = k
    · simp [dictSet_cons, lookup?_cons, h]
    · simp [dictSet_cons, lookup?_cons, h, ih]

theorem lookup?_dictSet_ne {α : Type} (d : List (String × α)) {k m : String} (v : α)
    (h : k ≠ m) : lookup? (dictSet d k v) m = lookup? d m := by
  induction d with
  | nil => simp [dictSet, lookup?_cons, lookup?_nil, h]
  | cons p rest ih =>
    by_cases hp : p.1 = k
    · simp [dictSet_cons, lookup?_cons, hp, h]
    · simp [dictSet_cons, lookup?_cons, hp, ih]

theorem length_dictSet_le {α : Type} (d : List (String × α)) (k : String) (v : α) :
    d.length ≤ (dictSet d k v).length ∧ (dictSet d k v).length ≤ d.length + 1 := by
  induction d with
  | nil => simp [dictSet]
  | cons p rest ih =>
    by_cases hp : p.1 = k
    · simp [dictSet_cons, hp]
    · simp only [dictSet_cons, hp, if_false, List.length_cons]
      exact ⟨Nat.succ_le_succ ih.1, Nat.succ_le_succ ih.2⟩

theorem length_dictSet_new {α : Type} (d : List (String × α)) {k : String} (v : α)
    (h : lookup? d k = none) : (dictSet d k v).length = d.length + 1 := by
  induction d with
  | nil => simp [dictSet]
  | cons p rest ih =>
    rw [lookup?_cons] at h
    by_cases hp : p.1 = k
    · simp [hp] at h
    · rw [if_neg hp] at h
      simp only [dictSet_cons, hp, if_false, List.length_cons]
      rw [ih h]

/-! ## Python-style rounding

`round(x, n)` in Python rounds to `n` decimal digits.  We model it with
Mathlib's `round` (nearest integer); the two agree except at exact ties,
which none of the statements below touch. -/

/-- `round(q, n)`: round a rational to `n` decimal digits. -/
def roundTo (n : ℕ) (q : ℚ) : ℚ := ((round (q * 10 ^ n) : ℤ) : ℚ) / 10 ^ n

theorem roundTo_le_roundTo (n : ℕ) {x y : ℚ} (h : x ≤ y) :
    roundTo n x ≤ roundTo n y := by
  unfold roundTo
  have hp : (0 : ℚ) < 10 ^ n := by positivity
  have hr : round (x * 10 ^ n) ≤ round (y * 10 ^ n) := by
    rw [round_eq, round_eq]
    exact Int.floor_le_floor (by nlinarith)
  exact div_le_div_of_nonneg_right (by exact_mod_cast hr) hp.le

theorem abs_roundTo_sub (n : ℕ) (q : ℚ) :
    |roundTo n q - q| ≤ 1 / (2 * 10 ^ n) := by
  have hp : (0 : ℚ) < 10 ^ n := by positivity
  have h := abs_sub_round (q * 10 ^ n)
  have key : roundTo n q - q = (((round (q * 10 ^ n) : ℤ) : ℚ) - q * 10 ^ n) / 10 ^ n := by
    unfold roundTo
    rw [sub_div, mul_div_assoc, div_self (ne_of_gt hp), mul_one]
  rw [key, abs_div, abs_of_pos hp, abs_sub_comm]
  calc |q * 10 ^ n - ((round (q * 10 ^ n) : ℤ) : ℚ)| / 10 ^ n
      ≤ (1 / 2) / 10 ^ n := div_le_div_of_nonneg_right h hp.le
    _ = 1 / (2 * 10 ^ n) := by ring

theorem roundTo_intCast (n : ℕ) (z : ℤ) : roundTo n ((z : ℚ)) = z := by
  unfold roundTo
  have hp : (0 : ℚ) < 10 ^ n := by positivity
  have hc : (z : ℚ) * 10 ^ n = ((z * 10 ^ n : ℤ) : ℚ) := by push_cast; ring
  rw [hc, round_intCast]
  push_cast
  rw [mul_div_assoc, div_self (ne_of_gt hp), mul_one]

/-! ## Data model: `SignalRecord` -/

/-- One record of a token signal and its outcome (the `SignalRecord`
dataclass, with the dataclass field defaults). -/
structure SignalRecord where
  mint : String
  name : String := ""
  symbol : String := ""
  timestamp : String := ""
  narrative_score : ℚ := 5
  timing_score : ℚ := 5
  holders_score : ℚ := 5
  deployer_score : ℚ := 5
  momentum_score : ℚ := 5
  smart_money_score : ℚ := 0
  rug_safety_score : ℚ := 5
  bundles_score : ℚ := 5
  entry_score : ℚ := 5
  alert_sent : Bool := false
  outcome : String := "pending"
  peak_x : ℚ := 1
  final_x : ℚ := 1
  peak_mcap : ℚ := 0
  time_to_peak_hours : ℚ := 0
  source : String := ""
  narrative_category : String := ""
deriving DecidableEq

/-- `SignalRecord.get_component_scores`: the component scores as a dict. -/
def SignalRecord.get_component_scores (r : SignalRecord) : List (String × ℚ) :=
  [("narrative", r.narrative_score),
   ("timing", r.timing_score),
   ("holders", r.holders_score),
   ("deployer", r.deployer_score),
   ("momentum", r.momentum_score),
   ("smart_money", r.smart_money_score),
   ("rug_safety", r.rug_safety_score),
   ("bundles", r.bundles_score)]

/-- The module-level `EXTENDED_WEIGHTS` dict. -/
def EXTENDED_WEIGHTS : List (String × ℚ) :=
  [("narrative", 0.15), ("timing", 0.10), ("holders", 0.15), ("deployer", 0.10),
   ("momentum", 0.10), ("smart_money", 0.20), ("rug_safety", 0.15), ("bundles", 0.05)]

/-- The module-level `DEFAULT_WEIGHTS` dict. -/
def DEFAULT_WEIGHTS : List (String × ℚ) :=
  [("narrative", 0.25), ("timing", 0.20), ("holders", 0.20), ("deployer", 0.20),
   ("momentum", 0.15)]

/-! ## Adaptive scorer (`AdaptiveEntryScorer`) -/

/-- Per-component entry of the scorer's breakdown dict. -/
structure BreakdownEntry where
  raw : ℚ
  weight : ℚ
  weighted : ℚ
deriving DecidableEq

/-- The dict returned by `AdaptiveEntryScorer.score`. -/
structure ScoreResult where
  final_score : ℚ
  verdict : String
  breakdown : List (String × BreakdownEntry)
  weights_source : String
deriving DecidableEq

/-- `AdaptiveEntryScorer._verdict`. -/
def _verdict (score : ℚ) : String :=
  if score ≥ 8.0 then "🟢 STRONG ENTRY"
  else if score ≥ 6.5 then "🟡 VIABLE ENTRY"
  else if score ≥ 5.0 then "🟠 WEAK ENTRY"
  else if score ≥ 3.5 then "🔴 HIGH RISK ENTRY"
  else "⛔ AVOID"

/-- `AdaptiveEntryScorer.score`.  `weights` is the optimizer's current weight
vector; `weights_file_on_disk` models `WEIGHTS_FILE.exists()`. -/
def score (weights : List (String × ℚ)) (weights_file_on_disk : Bool)
    (components : List (String × ℚ)) : ScoreResult :=
  let weighted_scores : List (String × BreakdownEntry) :=
    weights.map (fun p =>
      let raw_score := getD components p.1 5.0
      (p.1, { raw := roundTo 2 raw_score, weight := roundTo 4 p.2,
              weighted := roundTo 3 (raw_score * p.2) }))
  let total := (weighted_scores.map (fun q => q.2.weighted)).sum
  let final := max 1.0 (min 10.0 total)
  { final_score := roundTo 2 final,
    verdict := _verdict final,
    breakdown := weighted_scores,
    weights_source := if weights_file_on_disk then "optimized" else "default" }

theorem roundTo_one (n : ℕ) : roundTo n (1 : ℚ) = 1 := by
  simpa using roundTo_intCast n 1

theorem roundTo_ten (n : ℕ) : roundTo n (10 : ℚ) = 10 := by
  simpa using roundTo_intCast n 10

/-- C4: for every component-score map (including all-minimum, all-maximum,
empty and out-of-range maps) and every current weight vector, the
`final_score` returned by `score` lies in the interval `[1, 10]`. -/
theorem score_final_score_mem_Icc (weights : List (String × ℚ))
    (weights_file_on_disk : Bool) (components : List (String × ℚ)) :
    1 ≤ (score weights weights_file_on_disk components).final_score ∧
      (score weights weights_file_on_disk components).final_score ≤ 10 := by
  have key : ∀ t : ℚ, 1 ≤ roundTo 2 (max 1.0 (min 10.0 t)) ∧
      roundTo 2 (max 1.0 (min 10.0 t)) ≤ 10 := by
    intro t
    have h1 : (1 : ℚ) ≤ max 1.0 (min 10.0 t) := by
      refine le_trans (le_of_eq ?_) (le_max_left _ _)
      norm_num
    have h2 : max 1.0 (min 10.0 t) ≤ 10 := by
      apply max_le
      · norm_num
      · exact le_trans (min_le_left _ _) (by norm_num)
    constructor
    · calc (1 : ℚ) = roundTo 2 1 := (roundTo_one 2).symm
        _ ≤ roundTo 2 (max 1.0 (min 10.0 t)) := roundTo_le_roundTo 2 h1
    · calc roundTo 2 (max 1.0 (min 10.0 t)) ≤ roundTo 2 10 := roundTo_le_roundTo 2 h2
        _ = 10 := roundTo_ten 2
  exact key _

/-! ## Signal ledger (`SignalHistory`)

The `records` dict is an association list from mint to `SignalRecord`. -/

/-- The `SignalHistory.records` dict. -/
abbrev Ledger : Type := List (String × SignalRecord)

/-- `SignalHistory.record_signal`: build a `SignalRecord` and store it under
its mint (the persistent `_save` has no observable effect on the dict). -/
def record_signal (db : Ledger) (rec : SignalRecord) : Ledger :=
  dictSet db rec.mint rec

/-- `SignalHistory.update_outcome`: if the mint exists, overwrite the four
outcome fields; otherwise do nothing. -/
def update_outcome (db : Ledger) (mint outcome : String)
    (peak_x final_x peak_mcap : ℚ) : Ledger :=
  match lookup? db mint with
  | some r => dictSet db mint
      { r with outcome := outcome, peak_x := peak_x, final_x := final_x,
               peak_mcap := peak_mcap }
  | none => db

/-- `SignalHistory.get_completed_records`: records with outcome ≠ pending. -/
def get_completed_records (db : Ledger) : List SignalRecord :=
  (db.map (fun p => p.2)).filter (fun r => r.outcome != "pending")

/-- `SignalHistory.get_winners`. -/
def get_winners (db : Ledger) : List SignalRecord :=
  (db.map (fun p => p.2)).filter (fun r => r.outcome == "winner")

/-- `SignalHistory.get_losers` (losers and rugs). -/
def get_losers (db : Ledger) : List SignalRecord :=
  (db.map (fun p => p.2)).filter (fun r => r.outcome == "loser" || r.outcome == "rug")

/-- Python's `max(iterable, default=d)`. -/
def listMaxD : List ℚ → ℚ → ℚ
  | [], d => d
  | x :: xs, _ => xs.foldl max x

/-- The dict returned by `SignalHistory.get_stats`: either the early
"no completed signals" object `{total: 0, message: …}` or the full stats
object. -/
inductive StatsResult where
  | noData (total : ℕ) (message : String)
  | stats (total_signals completed winners losers rugs : ℕ)
      (win_rate avg_peak_x_winners avg_peak_x_losers : ℚ)
      (alerted : ℕ) (alerted_win_rate : ℚ) (best_trade_x : ℚ)
deriving DecidableEq

/-- Whether a `StatsResult` is the full stats object. -/
def StatsResult.isFull : StatsResult → Bool
  | .noData _ _ => false
  | .stats _ _ _ _ _ _ _ _ _ _ _ => true

/-- `SignalHistory.get_stats`. -/
def get_stats (db : Ledger) : StatsResult :=
  let completed := get_completed_records db
  if completed.isEmpty then .noData 0 "No completed signals yet"
  else
    let winners := completed.filter (fun r => r.outcome == "winner")
    let losers := completed.filter (fun r => r.outcome == "loser" || r.outcome == "rug")
    let rugs := completed.filter (fun r => r.outcome == "rug")
    let alerted := completed.filter (fun r => r.alert_sent)
    let alerted_winners := alerted.filter (fun r => r.outcome == "winner")
    .stats db.length completed.length winners.length losers.length rugs.length
      (if ¬completed.isEmpty then roundTo 3 ((winners.length : ℚ) / completed.length) else 0)
      (if ¬winners.isEmpty then
        roundTo 2 ((winners.map (fun r => r.peak_x)).sum / winners.length) else 0)
      (if ¬losers.isEmpty then
        roundTo 2 ((losers.map (fun r => r.peak_x)).sum / losers.length) else 0)
      alerted.length
      (if ¬alerted.isEmpty then
        roundTo 3 ((alerted_winners.length : ℚ) / alerted.length) else 0)
      (listMaxD (completed.map (fun r => r.peak_x)) 0)

/-! ### Ledger operation sequences -/

/-- A mutating ledger operation: `record_signal` or `update_outcome`. -/
inductive LedgerOp where
  | record (rec : SignalRecord)
  | update (mint outcome : String) (peak_x final_x peak_mcap : ℚ)
deriving DecidableEq

/-- Apply one operation to the ledger. -/
def applyOp (db : Ledger) : LedgerOp → Ledger
  | .record rec => record_signal db rec
  | .update mint outcome px fx pm => update_outcome db mint outcome px fx pm

/-- The mint an operation is addressed to. -/
def LedgerOp.target : LedgerOp → String
  | .record rec => rec.mint
  | .update mint _ _ _ _ => mint

/-- Run a sequence of operations on a ledger. -/
def runOps (db : Ledger) (ops : List LedgerOp) : Ledger :=
  ops.foldl applyOp db

/-- The outcome field of mint `m` after running `ops` on an empty ledger. -/
def outcomeAfter (ops : List LedgerOp) (m : String) : Option String :=
  (lookup? (runOps [] ops) m).map (fun r => r.outcome)

/-- A terminal outcome value. -/
def isTerminal : Option String → Bool
  | some s => s == "winner" || s == "loser" || s == "rug"
  | none => false

theorem runOps_append (db : Ledger) (l₁ l₂ : List LedgerOp) :
    runOps db (l₁ ++ l₂) = runOps (runOps db l₁) l₂ :=
  List.foldl_append ..

theorem lookup?_applyOp_ne (db : Ledger) (op : LedgerOp) {m : String}
    (h : op.target ≠ m) : lookup? (applyOp db op) m = lookup? db m := by
  cases op with
  | record rec =>
    exact lookup?_dictSet_ne db _ h
  | update mint outcome px fx pm =>
    simp only [applyOp, update_outcome]
    cases hl : lookup? db mint with
    | none => rfl
    | some r => exact lookup?_dictSet_ne db _ h

theorem lookup?_runOps_ne (db : Ledger) (ops : List LedgerOp) {m : String}
    (h : ∀ op ∈ ops, op.target ≠ m) : lookup? (runOps db ops) m = lookup? db m := by
  induction ops generalizing db with
  | nil => rfl
  | cons op rest ih =>
    have : runOps db (op :: rest) = runOps (applyOp db op) rest := rfl
    rw [this, ih (applyOp db op) (fun o ho => h o (List.mem_cons_of_mem op ho)),
        lookup?_applyOp_ne db op (h op (List.mem_cons_self op rest))]

/-- Mint strings of pairwise distinct lengths, used to exhibit unbounded
ledger growth. -/
def mintOfNat (i : ℕ) : String := String.mk (List.replicate i 'a')

theorem mintOfNat_injective : Function.Injective mintOfNat := by
  intro i j h
  have hl := congrArg String.length h
  simpa [mintOfNat, String.length] using hl

theorem runOps_record_fresh_length (ms : List String) (db : Ledger)
    (hn : ms.Nodup) (hfresh : ∀ m ∈ ms, lookup? db m = none) :
    (runOps db (ms.map (fun m => .record { mint := m }))).length
      = db.length + ms.length := by
  induction ms generalizing db with
  | nil => simp [runOps]
  | cons m rest ih =>
    have hstep : runOps db ((m :: rest).map (fun m => LedgerOp.record { mint := m }))
        = runOps (applyOp db (.record { mint := m }))
            (rest.map (fun m => LedgerOp.record { mint := m })) := rfl
    have happ : applyOp db (.record { mint := m }) = dictSet db m { mint := m } := rfl
    have hlen : (applyOp db (.record { mint := m })).length = db.length + 1 := by
      rw [happ]
      exact length_dictSet_new db _ (hfresh m (List.mem_cons_self m rest))
    have hfresh' : ∀ m' ∈ rest,
        lookup? (applyOp db (.record { mint := m })) m' = none := by
      intro m' hm'
      have hne : m ≠ m' := fun he => (List.nodup_cons.mp hn).1 (he ▸ hm')
      rw [happ, lookup?_dictSet_ne db _ hne]
      exact hfresh m' (List.mem_cons_of_mem m hm')
    rw [hstep, ih _ (List.nodup_cons.mp hn).2 hfresh', hlen]
    simp only [List.length_cons]
    omega

/-- C7 (counterexample): there is no cap bounding the ledger's record count
over all operation sequences — the code performs no retention trimming. -/
theorem no_record_count_cap :
    ¬ ∃ cap : ℕ, ∀ ops : List LedgerOp, (runOps [] ops).length ≤ cap := by
  rintro ⟨cap, hc⟩
  have hn : ((List.range (cap + 1)).map mintOfNat).Nodup :=
    (List.nodup_range (cap + 1)).map mintOfNat_injective
  have hlen := runOps_record_fresh_length ((List.range (cap + 1)).map mintOfNat) []
    hn (fun m _ => rfl)
  have := hc (((List.range (cap + 1)).map mintOfNat).map (fun m => .record { mint := m }))
  rw [hlen] at this
  simp only [List.length_nil, List.length_map, List.length_range] at this
  omega

/-- C7 (amended): no operation ever removes records — each `record_signal`
or `update_outcome` leaves the record count unchanged or grows it by exactly
one; there is no retention trimming that bounds the count. -/
theorem applyOp_length_bounds (db : Ledger) (op : LedgerOp) :
    db.length ≤ (applyOp db op).length ∧ (applyOp db op).length ≤ db.length + 1 := by
  cases op with
  | record rec => exact length_dictSet_le db rec.mint rec
  | update mint outcome px fx pm =>
    simp only [applyOp, update_outcome]
    cases hl : lookup? db mint with
    | none => simp
    | some r => exact length_dictSet_le db mint _

/-- C6 (counterexample): a terminal outcome can be silently overwritten by a
later `update_outcome` on the same mint, so the claimed pending-to-terminal-
only transition discipline is false. -/
theorem outcome_terminal_can_flip :
    ¬ (∀ (ops : List LedgerOp) (m : String) (i j : ℕ), i ≤ j →
        isTerminal (outcomeAfter (ops.take i) m) = true →
        outcomeAfter (ops.take j) m = outcomeAfter (ops.take i) m) := by
  intro h
  have := h [.record { mint := "m" }, .update "m" "winner" 1 1 0,
             .update "m" "loser" 1 1 0] "m" 2 3 (by omega) (by decide)
  exact absurd this (by decide)

/-- C6 (amended): once a record's outcome is terminal, every later operation
addressed to a *different* mint leaves that record's outcome unchanged; only
a later `record_signal`/`update_outcome` on the same mint can change it. -/
theorem outcome_frame_other_targets (pre mid : List LedgerOp) (m : String)
    (_hterm : isTerminal (outcomeAfter pre m) = true)
    (hmid : ∀ op ∈ mid, op.target ≠ m) :
    outcomeAfter (pre ++ mid) m = outcomeAfter pre m := by
  unfold outcomeAfter
  rw [runOps_append, lookup?_runOps_ne _ _ hmid]

/-- Witness for C6 (amended) at a concrete operation sequence. -/
theorem outcome_frame_other_targets_witness :
    isTerminal (outcomeAfter [.record { mint := "m" }, .update "m" "winner" 1 1 0] "m")
      = true ∧
    (∀ op ∈ [LedgerOp.update "x" "loser" 1 1 0], op.target ≠ "m") ∧
    outcomeAfter ([.record { mint := "m" }, .update "m" "winner" 1 1 0]
        ++ [LedgerOp.update "x" "loser" 1 1 0]) "m"
      = outcomeAfter [.record { mint := "m" }, .update "m" "winner" 1 1 0] "m" :=
  ⟨by decide, by decide,
   outcome_frame_other_targets _ _ _ (by decide) (by decide)⟩

/-- C8 (counterexample): on an empty ledger `get_stats` returns only
`{total: 0, message: …}` — not a zero-valued full stats object with counts,
rates and multipliers. -/
theorem get_stats_empty_not_full :
    get_stats [] = StatsResult.noData 0 "No completed signals yet" ∧
    (get_stats []).isFull = false := by
  exact ⟨rfl, rfl⟩

/-- C8 (amended): on a ledger with no completed records, `get_stats` does
not raise and returns the early `{total: 0, message: "No completed signals
yet"}` object; the count/rate fields are only present otherwise. -/
theorem get_stats_no_completed (db : Ledger)
    (h : get_completed_records db = []) :
    get_stats db = .noData 0 "No completed signals yet" := by
  simp [get_stats, h]

/-- Witness for C8 (amended) on the empty ledger. -/
theorem get_stats_no_completed_witness :
    get_completed_records [] = [] ∧
    get_stats [] = .noData 0 "No completed signals yet" :=
  ⟨rfl, get_stats_no_completed [] rfl⟩

/-- C10: `update_outcome` on a present mint rewrites exactly the fields
`outcome`, `peak_x`, `final_x`, `peak_mcap` of that record and leaves every
other field of it, and every other record, unchanged. -/
theorem update_outcome_frame (db : Ledger) (mint outcome : String)
    (px fx pm : ℚ) (r : SignalRecord) (m' : String)
    (h : lookup? db mint = some r) (hne : m' ≠ mint) :
    lookup? (update_outcome db mint outcome px fx pm) mint =
      some { r with outcome := outcome, peak_x := px, final_x := fx,
                    peak_mcap := pm } ∧
    lookup? (update_outcome db mint outcome px fx pm) m' = lookup? db m' := by
  unfold update_outcome
  rw [h]
  exact ⟨lookup?_dictSet_self db mint _,
         lookup?_dictSet_ne db _ (fun he => hne he.symm)⟩

/-- Witness for C10 at a concrete two-record ledger. -/
theorem update_outcome_frame_witness :
    lookup? ([("m", { mint := "m" }), ("x", { mint := "x" })] : Ledger) "m"
      = some { mint := "m" } ∧
    "x" ≠ "m" ∧
    (lookup? (update_outcome ([("m", { mint := "m" }), ("x", { mint := "x" })] : Ledger)
        "m" "winner" 2 3 4) "m"
      = some { mint := "m", outcome := "winner",
               peak_x := 2, final_x := 3, peak_mcap := 4 } ∧
     lookup? (update_outcome ([("m", { mint := "m" }), ("x", { mint := "x" })] : Ledger)
        "m" "winner" 2 3 4) "x"
      = lookup? ([("m", { mint := "m" }), ("x", { mint := "x" })] : Ledger) "x") :=
  ⟨by decide, by decide,
   update_outcome_frame ([("m", { mint := "m" }), ("x", { mint := "x" })] : Ledger)
     "m" "winner" 2 3 4 { mint := "m" } "x" (by decide) (by decide)⟩

/-- C9: component-score maps that agree on every key of the weight vector
produce identical `score` results; keys outside the weight vector have no
influence. -/
theorem score_depends_only_on_weight_keys (weights : List (String × ℚ))
    (weights_file_on_disk : Bool) (c1 c2 : List (String × ℚ))
    (h : ∀ k ∈ weights.map Prod.fst, lookup? c1 k = lookup? c2 k) :
    score weights weights_file_on_disk c1 = score weights weights_file_on_disk c2 := by
  unfold score
  have hmap : ∀ p ∈ weights, getD c1 p.1 5.0 = getD c2 p.1 5.0 := by
    intro p hp
    unfold getD
    rw [h p.1 (List.mem_map_of_mem Prod.fst hp)]
  have hb : weights.map (fun p =>
      let raw_score := getD c1 p.1 5.0
      (p.1, ({ raw := roundTo 2 raw_score, weight := roundTo 4 p.2,
               weighted := roundTo 3 (raw_score * p.2) } : BreakdownEntry))) =
    weights.map (fun p =>
      let raw_score := getD c2 p.1 5.0
      (p.1, ({ raw := roundTo 2 raw_score, weight := roundTo 4 p.2,
               weighted := roundTo 3 (raw_score * p.2) } : BreakdownEntry))) := by
    apply List.map_congr_left
    intro p hp
    simp only [hmap p hp]
  simp only [hb]

/-- Witness for C9: a key absent from the weight vector does not change the
result. -/
theorem score_depends_only_on_weight_keys_witness :
    (∀ k ∈ EXTENDED_WEIGHTS.map Prod.fst,
      lookup? ([("narrative", (7 : ℚ)), ("junk", 3)] : List (String × ℚ)) k
        = lookup? ([("narrative", (7 : ℚ))] : List (String × ℚ)) k) ∧
    score EXTENDED_WEIGHTS false ([("narrative", (7 : ℚ)), ("junk", 3)] : List (String × ℚ))
      = score EXTENDED_WEIGHTS false ([("narrative", (7 : ℚ))] : List (String × ℚ)) :=
  ⟨by decide,
   score_depends_only_on_weight_keys EXTENDED_WEIGHTS false _ _ (by decide)⟩

/-! ## Weight normalization (`WeightOptimizer._normalize`) -/

/-- `WeightOptimizer._normalize`: scale the weights to sum to 1 and round
each to 4 decimal digits (uniform reset when the sum is 0). -/
def _normalize (weights : List (String × ℚ)) : List (String × ℚ) :=
  let total := (weights.map (fun p => p.2)).sum
  if total = 0 then weights.map (fun p => (p.1, 1 / (weights.length : ℚ)))
  else weights.map (fun p => (p.1, roundTo 4 (p.2 / total)))

theorem list_sum_map_sub {α : Type} (l : List α) (f g : α → ℚ) :
    (l.map f).sum - (l.map g).sum = (l.map (fun x => f x - g x)).sum := by
  induction l with
  | nil => simp
  | cons x xs ih =>
    simp only [List.map_cons, List.sum_cons]
    linarith [ih]

theorem list_abs_sum_le {α : Type} (l : List α) (f : α → ℚ) (b : ℚ)
    (hb : ∀ x ∈ l, |f x| ≤ b) : |(l.map f).sum| ≤ l.length * b := by
  induction l with
  | nil => simp
  | cons x xs ih =>
    simp only [List.map_cons, List.sum_cons, List.length_cons]
    have h1 : |f x + (xs.map f).sum| ≤ |f x| + |(xs.map f).sum| := abs_add _ _
    have h2 : |f x| ≤ b := hb x (List.mem_cons_self x xs)
    have h3 : |(xs.map f).sum| ≤ xs.length * b :=
      ih (fun y hy => hb y (List.mem_cons_of_mem x hy))
    push_cast
    linarith

theorem list_sum_map_div {α : Type} (l : List α) (f : α → ℚ) (c : ℚ) :
    (l.map (fun x => f x / c)).sum = (l.map f).sum / c := by
  induction l with
  | nil => simp
  | cons x xs ih => simp [List.sum_cons, add_div, ih]

/-- C3 (counterexample): three equal weights normalize to `0.3333` each, so
the normalized values sum to `0.9999` — off from 1 by `10⁻⁴ > 10⁻⁶`. -/
theorem normalize_sum_tolerance_counterexample :
    ¬ (|((_normalize [("a", (1 : ℚ)), ("b", 1), ("c", 1)]).map (fun p => p.2)).sum - 1|
        ≤ 1 / 1000000) := by
  norm_num [_normalize, roundTo, round_eq]
  rw [abs_of_pos (by norm_num : (0 : ℚ) < 1 / 10000)]
  norm_num

/-- C3 (amended): for a non-empty weight map with non-negative entries, the
values returned by `_normalize` sum to 1 within `n × 5·10⁻⁵` (the per-entry
error of rounding to 4 decimal digits), i.e. within `4·10⁻⁴` for the
8-component vectors — not within `10⁻⁶`. -/
theorem normalize_sum_close (w : List (String × ℚ)) (hne : w ≠ [])
    (_hpos : ∀ p ∈ w, 0 ≤ p.2) :
    |((_normalize w).map (fun p => p.2)).sum - 1| ≤ (w.length : ℚ) / 20000 := by
  unfold _normalize
  by_cases hS : (w.map (fun p => p.2)).sum = 0
  · rw [if_pos hS]
    have hlen : w.length ≠ 0 := fun h => hne (List.length_eq_zero.mp h)
    have hmm : (w.map (fun p => (p.1, 1 / (w.length : ℚ)))).map (fun p => p.2)
        = w.map (fun _ => 1 / (w.length : ℚ)) := by
      rw [List.map_map]; rfl
    rw [hmm]
    have hconst : w.map (fun _ => 1 / (w.length : ℚ))
        = List.replicate w.length (1 / (w.length : ℚ)) :=
      List.map_const w (1 / (w.length : ℚ))
    rw [hconst, List.sum_replicate, nsmul_eq_mul,
        mul_one_div, div_self (by exact_mod_cast hlen)]
    simp only [sub_self, abs_zero]
    positivity
  · rw [if_neg hS]
    have h1 : ((w.map (fun p => (p.1, roundTo 4 (p.2 / (w.map (fun p => p.2)).sum)))).map
        (fun p => p.2)).sum
        = (w.map (fun p => roundTo 4 (p.2 / (w.map (fun p => p.2)).sum))).sum := by
      rw [List.map_map]; rfl
    have hexact : (w.map (fun p => p.2 / (w.map (fun p => p.2)).sum)).sum = 1 := by
      rw [list_sum_map_div, div_self hS]
    rw [h1]
    calc |(w.map (fun p => roundTo 4 (p.2 / (w.map (fun p => p.2)).sum))).sum - 1|
        = |(w.map (fun p => roundTo 4 (p.2 / (w.map (fun p => p.2)).sum))).sum
            - (w.map (fun p => p.2 / (w.map (fun p => p.2)).sum)).sum| := by rw [hexact]
      _ = |(w.map (fun p => roundTo 4 (p.2 / (w.map (fun p => p.2)).sum)
            - p.2 / (w.map (fun p => p.2)).sum)).sum| := by rw [list_sum_map_sub]
      _ ≤ w.length * (1 / 20000) := by
          refine list_abs_sum_le _ _ _ (fun p _ => ?_)
          have h := abs_roundTo_sub 4 (p.2 / (w.map (fun p => p.2)).sum)
          norm_num at h ⊢
          exact h
      _ = (w.length : ℚ) / 20000 := by ring

/-! ## Stable descending sort

Python's `list.sort(key=…, reverse=True)` is a stable sort, descending in
the key, ties keeping their original order.  Any stable descending sort is
extensionally that sort; we use insertion sort for a structurally
recursive embedding. -/

/-- Insert `x` into a (descending-sorted) list: before the first element
whose key is strictly smaller, after all elements with a ≥ key. -/
def insertByDesc {α : Type} (key : α → ℚ) (x : α) : List α → List α
  | [] => [x]
  | y :: ys => if key y ≤ key x then x :: y :: ys else y :: insertByDesc key x ys

/-- Stable sort, descending by `key` (Python `sort(key=…, reverse=True)`). -/
def sortByDesc {α : Type} (key : α → ℚ) : List α → List α
  | [] => []
  | x :: xs => insertByDesc key x (sortByDesc key xs)

theorem length_insertByDesc {α : Type} (key : α → ℚ) (x : α) (l : List α) :
    (insertByDesc key x l).length = l.length + 1 := by
  induction l with
  | nil => rfl
  | cons y ys ih => by_cases h : key y ≤ key x <;> simp [insertByDesc, h, ih]

theorem length_sortByDesc {α : Type} (key : α → ℚ) (l : List α) :
    (sortByDesc key l).length = l.length := by
  induction l with
  | nil => rfl
  | cons x xs ih => simp [sortByDesc, length_insertByDesc, ih]

theorem mem_insertByDesc {α : Type} (key : α → ℚ) (x z : α) (l : List α) :
    z ∈ insertByDesc key x l ↔ z = x ∨ z ∈ l := by
  induction l with
  | nil => simp [insertByDesc]
  | cons y ys ih =>
    by_cases h : key y ≤ key x <;> simp [insertByDesc, h, ih] <;> tauto

theorem mem_sortByDesc {α : Type} (key : α → ℚ) (z : α) (l : List α) :
    z ∈ sortByDesc key l ↔ z ∈ l := by
  induction l with
  | nil => exact Iff.rfl
  | cons x xs ih => simp [sortByDesc, mem_insertByDesc, ih]

theorem pairwise_insertByDesc {α : Type} (key : α → ℚ) (x : α) (l : List α)
    (h : l.Pairwise (fun a b => key b ≤ key a)) :
    (insertByDesc key x l).Pairwise (fun a b => key b ≤ key a) := by
  induction l with
  | nil => simp [insertByDesc]
  | cons y ys ih =>
    rcases List.pairwise_cons.mp h with ⟨hy, hys⟩
    by_cases hx : key y ≤ key x
    · simp only [insertByDesc, if_pos hx]
      refine List.pairwise_cons.mpr ⟨?_, h⟩
      intro z hz
      rcases List.mem_cons.mp hz with rfl | hz'
      · exact hx
      · exact le_trans (hy z hz') hx
    · simp only [insertByDesc, if_neg hx]
      refine List.pairwise_cons.mpr ⟨?_, ih hys⟩
      intro z hz
      rcases (mem_insertByDesc key x z ys).mp hz with rfl | hz'
      · exact le_of_not_le hx
      · exact hy z hz'

theorem pairwise_sortByDesc {α : Type} (key : α → ℚ) (l : List α) :
    (sortByDesc key l).Pairwise (fun a b => key b ≤ key a) := by
  induction l with
  | nil => simp [sortByDesc]
  | cons x xs ih => exact pairwise_insertByDesc key x _ ih

theorem sortByDesc_head_ge {α : Type} (key : α → ℚ) (l : List α) (y : α)
    (ys : List α) (h : sortByDesc key l = y :: ys) {z : α} (hz : z ∈ l) :
    key z ≤ key y := by
  have hmem : z ∈ y :: ys := h ▸ (mem_sortByDesc key z l).mpr hz
  rcases List.mem_cons.mp hmem with rfl | hz'
  · exact le_refl _
  · have hp := pairwise_sortByDesc key l
    rw [h] at hp
    exact (List.pairwise_cons.mp hp).1 z hz'

/-! ## Fitness (`WeightOptimizer._evaluate_fitness`) -/

/-- A record's weighted score under a weight dict:
`sum(components.get(k, 5.0) * weights.get(k, 0) for k in weights)`. -/
def weightedScore (weights components : List (String × ℚ)) : ℚ :=
  (weights.map (fun p => getD components p.1 5.0 * getD weights p.1 0)).sum

/-- `WeightOptimizer._evaluate_fitness`. -/
def _evaluate_fitness (weights : List (String × ℚ))
    (records : List SignalRecord) : ℚ :=
  let winner_scores := (records.filter (fun r => r.outcome == "winner")).map
      (fun r => weightedScore weights r.get_component_scores)
  let loser_scores := (records.filter
      (fun r => r.outcome == "loser" || r.outcome == "rug")).map
      (fun r => weightedScore weights r.get_component_scores)
  if winner_scores.isEmpty || loser_scores.isEmpty then 0.0
  else
    let avg_winner := winner_scores.sum / (winner_scores.length : ℚ)
    let avg_loser := loser_scores.sum / (loser_scores.length : ℚ)
    let separation := avg_winner - avg_loser
    let all_scores := winner_scores.map (fun s => (s, true))
        ++ loser_scores.map (fun s => (s, false))
    let sorted_scores := sortByDesc (fun p => p.1) all_scores
    let top_n := max 1 (all_scores.length / 3)
    let top_signals := sorted_scores.take top_n
    let precision := ((top_signals.filter (fun p => p.2)).length : ℚ)
        / (top_signals.length : ℚ)
    let rug_penalty := records.foldl
      (fun acc r => if r.outcome == "rug"
          && decide (6 < weightedScore weights r.get_component_scores)
        then acc + 0.5 else acc) 0
    separation * 2.0 + precision * 3.0 - rug_penalty

/-- The spec's `separation`: mean weighted score of winners minus mean
weighted score of losers∪rugs, 0 when either side is empty. -/
def specSeparation (weights : List (String × ℚ))
    (records : List SignalRecord) : ℚ :=
  let winners := records.filter (fun r => r.outcome == "winner")
  let lr := records.filter (fun r => r.outcome == "loser" || r.outcome == "rug")
  if winners.isEmpty || lr.isEmpty then 0
  else (winners.map (fun r => weightedScore weights r.get_component_scores)).sum
        / (winners.length : ℚ)
    - (lr.map (fun r => weightedScore weights r.get_component_scores)).sum
        / (lr.length : ℚ)

/-- The spec's ranking: all winner/loser∪rug records as (weighted score,
is-winner) pairs, ranked by weighted score descending (stably, winners
listed first). -/
def specRanked (weights : List (String × ℚ))
    (records : List SignalRecord) : List (ℚ × Bool) :=
  sortByDesc (fun p => p.1)
    ((records.filter (fun r => r.outcome == "winner")).map
        (fun r => (weightedScore weights r.get_component_scores, true))
      ++ (records.filter (fun r => r.outcome == "loser" || r.outcome == "rug")).map
        (fun r => (weightedScore weights r.get_component_scores, false)))

/-- The spec's `precision` relative to a top-bucket size `t`: the fraction
of winners among the top `t` ranked records. -/
def specPrecisionAt (weights : List (String × ℚ))
    (records : List SignalRecord) (t : ℕ) : ℚ :=
  ((((specRanked weights records).take t).filter (fun p => p.2)).length : ℚ) / (t : ℚ)

/-- The spec's `rug_penalty`: 0.5 per rug record whose weighted score
exceeds 6.0. -/
def specRugPenalty (weights : List (String × ℚ))
    (records : List SignalRecord) : ℚ :=
  0.5 * ((records.filter (fun r => r.outcome == "rug"
      && decide (6 < weightedScore weights r.get_component_scores))).length : ℚ)

/-- The spec's reference fitness: `F = separation × 2.0 + precision × 3.0
− rug_penalty` with the top bucket of size `⌈N/3⌉`, empty winner or empty
loser∪rug sides contributing 0 to separation and precision. -/
def specFitness (weights : List (String × ℚ))
    (records : List SignalRecord) : ℚ :=
  let winners := records.filter (fun r => r.outcome == "winner")
  let lr := records.filter (fun r => r.outcome == "loser" || r.outcome == "rug")
  let precision := if winners.isEmpty || lr.isEmpty then 0
    else specPrecisionAt weights records ((winners.length + lr.length + 2) / 3)
  specSeparation weights records * 2.0 + precision * 3.0
    - specRugPenalty weights records


theorem list_isEmpty_map {α β : Type} (f : α → β) (l : List α) :
    (l.map f).isEmpty = l.isEmpty := by
  cases l <;> rfl

theorem foldl_add_half {α : Type} (P : α → Bool) (l : List α) (acc : ℚ) :
    l.foldl (fun a x => if P x then a + 0.5 else a) acc
      = acc + 0.5 * ((l.filter P).length : ℚ) := by
  induction l generalizing acc with
  | nil => simp
  | cons x xs ih =>
    by_cases h : P x
    · simp only [List.foldl_cons, h, if_true, List.filter_cons, ih, List.length_cons]
      push_cast
      ring
    · simp only [List.foldl_cons, h, if_false, List.filter_cons, ih]
      simp [h]

/-- C1 (counterexample): the code's fitness differs from the spec's
reference definition, (a) on a ledger with rugs but no winners (the code
returns 0.0 outright, skipping the rug penalty) and (b) on 4 completed
records (the code's top bucket holds `max(1, ⌊N/3⌋) = 1` record where the
spec prescribes `⌈N/3⌉ = 2`). -/
theorem fitness_ne_spec_fitness :
    _evaluate_fitness [("smart_money", (1 : ℚ))]
        [{ mint := "r", outcome := "rug", smart_money_score := 9 }]
      ≠ specFitness [("smart_money", (1 : ℚ))]
        [{ mint := "r", outcome := "rug", smart_money_score := 9 }] ∧
    _evaluate_fitness [("narrative", (1 : ℚ))]
        [{ mint := "w", outcome := "winner", narrative_score := 9 },
         { mint := "l1", outcome := "loser", narrative_score := 8 },
         { mint := "l2", outcome := "loser", narrative_score := 2 },
         { mint := "l3", outcome := "loser", narrative_score := 2 }]
      ≠ specFitness [("narrative", (1 : ℚ))]
        [{ mint := "w", outcome := "winner", narrative_score := 9 },
         { mint := "l1", outcome := "loser", narrative_score := 8 },
         { mint := "l2", outcome := "loser", narrative_score := 2 },
         { mint := "l3", outcome := "loser", narrative_score := 2 }] := by
  constructor
  · simp +decide [_evaluate_fitness, specFitness, specSeparation, specPrecisionAt,
      specRanked, specRugPenalty, weightedScore, getD, lookup?, List.find?,
      SignalRecord.get_component_scores, sortByDesc, insertByDesc]
    norm_num
  · simp +decide [_evaluate_fitness, specFitness, specSeparation, specPrecisionAt,
      specRanked, specRugPenalty, weightedScore, getD, lookup?, List.find?,
      SignalRecord.get_component_scores, sortByDesc, insertByDesc]
    norm_num

/-- C1 (amended): `_evaluate_fitness` equals
`separation × 2.0 + precision × 3.0 − rug_penalty` — with the precision
bucket holding the top `max(1, ⌊N/3⌋)` records (not `⌈N/3⌉`) — whenever
both the winner side and the loser∪rug side are non-empty; when either
side is empty the function returns 0.0 outright (so the rug penalty is not
applied in that case). -/
theorem fitness_amended (weights : List (String × ℚ)) (records : List SignalRecord) :
    _evaluate_fitness weights records =
      if (records.filter (fun r => r.outcome == "winner")).isEmpty
        || (records.filter (fun r => r.outcome == "loser" || r.outcome == "rug")).isEmpty
      then 0.0
      else specSeparation weights records * 2.0
        + specPrecisionAt weights records
            (max 1 (((records.filter (fun r => r.outcome == "winner")).length
              + (records.filter
                  (fun r => r.outcome == "loser" || r.outcome == "rug")).length) / 3))
            * 3.0
        - specRugPenalty weights records := by
  simp only [_evaluate_fitness, list_isEmpty_map]
  by_cases hc : ((records.filter (fun r => r.outcome == "winner")).isEmpty
      || (records.filter (fun r => r.outcome == "loser" || r.outcome == "rug")).isEmpty)
      = true
  · rw [if_pos hc, if_pos hc]
  · rw [if_neg hc, if_neg hc]
    simp only [specSeparation, specPrecisionAt, specRanked, specRugPenalty]
    rw [if_neg hc]
    simp only [List.map_map, Function.comp_def, List.length_append, List.length_map,
      length_sortByDesc, List.length_take]
    rw [foldl_add_half, zero_add]
    have hc' := hc
    rw [Bool.or_eq_true] at hc'
    push_neg at hc'
    obtain ⟨h1, h2⟩ := hc'
    have hWne : records.filter (fun r => r.outcome == "winner") ≠ [] := by
      intro h
      rw [h] at h1
      simp at h1
    have hLne : records.filter (fun r => r.outcome == "loser" || r.outcome == "rug") ≠ [] := by
      intro h
      rw [h] at h2
      simp at h2
    have hWpos : 0 < (records.filter (fun r => r.outcome == "winner")).length :=
      List.length_pos.mpr hWne
    have ht : (1 ⊔ ((records.filter (fun r => r.outcome == "winner")).length
        + (records.filter (fun r => r.outcome == "loser" || r.outcome == "rug")).length) / 3)
        ≤ (records.filter (fun r => r.outcome == "winner")).length
          + (records.filter (fun r => r.outcome == "loser" || r.outcome == "rug")).length := by
      apply sup_le
      · omega
      · exact Nat.div_le_self _ _
    rw [inf_eq_left.mpr ht]

/-- Witness for C3 (amended) at a one-entry weight map. -/
theorem normalize_sum_close_witness :
    ([("a", (1 : ℚ))] : List (String × ℚ)) ≠ [] ∧
    (∀ p ∈ ([("a", (1 : ℚ))] : List (String × ℚ)), 0 ≤ p.2) ∧
    |((_normalize ([("a", (1 : ℚ))] : List (String × ℚ))).map (fun p => p.2)).sum - 1|
      ≤ ((([("a", (1 : ℚ))] : List (String × ℚ)).length : ℚ)) / 20000 :=
  ⟨by decide, by decide, normalize_sum_close _ (by decide) (by decide)⟩

/-! ## Weight optimizer (`WeightOptimizer.optimize`)

The optimizer's random draws (`random.sample`, `random.uniform`,
`random.choice`, `random.randint`) are passed in explicitly as an oracle
(`MutChoice`, `OptRand`), so every theorem quantifying over the oracle
covers every outcome of the optimizer's random choices. -/

/-- The random draws consumed by one `_mutate` call: the sampled target
components (`random.sample(components, n_mutations)`) and the uniform
factor drawn for each target. -/
structure MutChoice where
  targets : List String
  factor : String → ℚ

/-- `WeightOptimizer._mutate`, with its random draws passed explicitly. -/
def _mutate (weights : List (String × ℚ)) (c : MutChoice) : List (String × ℚ) :=
  let new_weights := c.targets.foldl
    (fun nw comp => if (lookup? nw comp).isSome
      then dictSet nw comp (max 0.01 (getD nw comp 0.1 * c.factor comp))
      else nw) weights
  _normalize new_weights

/-- The stream of random draws consumed by one `optimize` run: the seed
mutations, and per generation and refill slot the `random.choice` index
and the mutation draws. -/
structure OptRand where
  seedMut : ℕ → MutChoice
  refillParent : ℕ → ℕ → ℕ
  refillMut : ℕ → ℕ → MutChoice

/-- `WeightOptimizer._rank_components`: components sorted by weight
descending, with rounded weights. -/
def _rank_components (weights : List (String × ℚ)) : List (String × ℚ) :=
  (sortByDesc (fun p => p.2) weights).map (fun p => (p.1, roundTo 4 p.2))

/-- The dict returned by `WeightOptimizer.optimize`.  `new_fitness` and
`improvement_pct` are `WithBot ℚ` because Python seeds the best-ever
fitness with `-inf` (`⊥`). -/
structure OptResult where
  success : Bool
  message : String := ""
  weights : List (String × ℚ) := []
  old_fitness : ℚ := 0
  new_fitness : WithBot ℚ := ⊥
  improvement_pct : WithBot ℚ := ⊥
  records_used : ℕ := 0
  components_ranked : List (String × ℚ) := []

/-- The optimizer's mutable state: `self.current_weights`. -/
structure Optimizer where
  current_weights : List (String × ℚ)

/-- Body of one generation, split on the fitness-sorted population
(`scored`): on the unreachable empty list the state is returned unchanged;
otherwise track the best-ever, keep the top 20% (elitism), refill with
mutants of parents drawn from the top 40%. -/
def optStepAux (_completed : List SignalRecord) (population : ℕ) (r : OptRand)
    (gen : ℕ)
    (st : List (List (String × ℚ)) × WithBot ℚ × List (String × ℚ)) :
    List (ℚ × List (String × ℚ)) →
      List (List (String × ℚ)) × WithBot ℚ × List (String × ℚ)
  | [] => st
  | s0 :: tail =>
    let scored := s0 :: tail
    let best := if st.2.1 < (s0.1 : WithBot ℚ) then ((s0.1 : WithBot ℚ), s0.2) else st.2
    let elite_count := max 2 (population / 5)
    let new_pop := (scored.take elite_count).map (fun s => s.2)
    let parentPool := (scored.take (elite_count * 2)).map (fun s => s.2)
    let refill := (List.range (population - new_pop.length)).map (fun slot =>
        _mutate (parentPool.getD (r.refillParent gen slot % parentPool.length) [])
          (r.refillMut gen slot))
    (new_pop ++ refill, best)

/-- One generation of the evolutionary loop: evaluate the fitness of every
candidate, sort descending (Python's stable `sort(reverse=True)`), and
apply `optStepAux`. -/
def optStep (completed : List SignalRecord) (population : ℕ) (r : OptRand)
    (gen : ℕ)
    (st : List (List (String × ℚ)) × WithBot ℚ × List (String × ℚ)) :
    List (List (String × ℚ)) × WithBot ℚ × List (String × ℚ) :=
  optStepAux completed population r gen st
    (sortByDesc (fun s => s.1)
      (st.1.map (fun w => (_evaluate_fitness w completed, w))))

/-- `WeightOptimizer.optimize`.  Returns the result dict together with the
new optimizer state (persisting to the weight file has no observable
effect on the state). -/
def optimize (opt : Optimizer) (hist : Ledger)
    (generations population min_records : ℕ) (r : OptRand) :
    OptResult × Optimizer :=
  let completed := get_completed_records hist
  if completed.length < min_records then
    ({ success := false,
       message := "Need " ++ toString min_records ++ " completed signals, have "
         ++ toString completed.length,
       weights := opt.current_weights }, opt)
  else
    let pop0 := opt.current_weights ::
      (List.range (population - 1)).map (fun i => _mutate opt.current_weights (r.seedMut i))
    let final := (List.range generations).foldl
      (fun st gen => optStep completed population r gen st)
      (pop0, (⊥ : WithBot ℚ), opt.current_weights)
    let best_weights := _normalize final.2.2
    let old_fitness := _evaluate_fitness opt.current_weights completed
    let improvement := final.2.1.map (fun bf =>
      if old_fitness ≠ 0 then (bf - old_fitness) / |old_fitness| * 100 else 0)
    ({ success := true,
       weights := best_weights,
       old_fitness := roundTo 4 old_fitness,
       new_fitness := final.2.1.map (roundTo 4),
       improvement_pct := improvement.map (roundTo 1),
       records_used := completed.length,
       components_ranked := _rank_components best_weights },
     { current_weights := best_weights })

/-- C5: with fewer completed records than `min_records`, `optimize` returns
a failure result (`success = false`) carrying a human-readable reason and
the current weight vector, leaves the stored weight vector unchanged, and
— being a total function — never raises. -/
theorem optimize_not_enough_data (opt : Optimizer) (hist : Ledger)
    (generations population min_records : ℕ) (r : OptRand)
    (h : (get_completed_records hist).length < min_records) :
    (optimize opt hist generations population min_records r).1.success = false ∧
    (optimize opt hist generations population min_records r).1.message
      = "Need " ++ toString min_records ++ " completed signals, have "
        ++ toString (get_completed_records hist).length ∧
    (optimize opt hist generations population min_records r).1.weights
      = opt.current_weights ∧
    (optimize opt hist generations population min_records r).2 = opt := by
  simp [optimize, if_pos h]

/-- Witness for C5: 0 completed records against `min_records = 20`. -/
theorem optimize_not_enough_data_witness :
    (get_completed_records ([] : Ledger)).length < 20 ∧
    ((optimize ⟨EXTENDED_WEIGHTS⟩ ([] : Ledger) 100 50 20
        ⟨fun _ => ⟨[], fun _ => 1⟩, fun _ _ => 0, fun _ _ => ⟨[], fun _ => 1⟩⟩).1.success
        = false ∧
      (optimize ⟨EXTENDED_WEIGHTS⟩ ([] : Ledger) 100 50 20
        ⟨fun _ => ⟨[], fun _ => 1⟩, fun _ _ => 0, fun _ _ => ⟨[], fun _ => 1⟩⟩).1.message
        = "Need " ++ toString 20 ++ " completed signals, have "
          ++ toString (get_completed_records ([] : Ledger)).length ∧
      (optimize ⟨EXTENDED_WEIGHTS⟩ ([] : Ledger) 100 50 20
        ⟨fun _ => ⟨[], fun _ => 1⟩, fun _ _ => 0, fun _ _ => ⟨[], fun _ => 1⟩⟩).1.weights
        = (⟨EXTENDED_WEIGHTS⟩ : Optimizer).current_weights ∧
      (optimize ⟨EXTENDED_WEIGHTS⟩ ([] : Ledger) 100 50 20
        ⟨fun _ => ⟨[], fun _ => 1⟩, fun _ _ => 0, fun _ _ => ⟨[], fun _ => 1⟩⟩).2
        = (⟨EXTENDED_WEIGHTS⟩ : Optimizer)) :=
  ⟨by decide,
   optimize_not_enough_data ⟨EXTENDED_WEIGHTS⟩ ([] : Ledger) 100 50 20
     ⟨fun _ => ⟨[], fun _ => 1⟩, fun _ _ => 0, fun _ _ => ⟨[], fun _ => 1⟩⟩ (by decide)⟩


theorem foldl_invariant {s : Type} (stepF : s → ℕ → s) (P : s → Prop)
    (hpres : ∀ x n, P x → P (stepF x n)) :
    ∀ (l : List ℕ) (x : s), P x → P (l.foldl stepF x) := by
  intro l
  induction l with
  | nil => intro x hx; exact hx
  | cons n rest ih => intro x hx; exact ih _ (hpres x n hx)

theorem optStep_best_preserve (completed : List SignalRecord) (population : ℕ)
    (r : OptRand) (gen : ℕ)
    (st : List (List (String × ℚ)) × WithBot ℚ × List (String × ℚ)) (f0 : ℚ)
    (hb : ∃ b : ℚ, st.2.1 = (b : WithBot ℚ) ∧ f0 ≤ b) :
    ∃ b' : ℚ, (optStep completed population r gen st).2.1 = (b' : WithBot ℚ)
      ∧ f0 ≤ b' := by
  obtain ⟨b, hb1, hb2⟩ := hb
  rw [optStep]
  cases hs : sortByDesc (fun s => s.1)
      (st.1.map (fun w => (_evaluate_fitness w completed, w))) with
  | nil => exact ⟨b, hb1, hb2⟩
  | cons s0 tail =>
    simp only [optStepAux]
    by_cases hlt : st.2.1 < (s0.1 : WithBot ℚ)
    · rw [if_pos hlt]
      refine ⟨s0.1, rfl, ?_⟩
      rw [hb1] at hlt
      exact le_of_lt (lt_of_le_of_lt hb2 (WithBot.coe_lt_coe.mp hlt))
    · rw [if_neg hlt]
      exact ⟨b, hb1, hb2⟩

theorem optStep_best_establish (completed : List SignalRecord) (population : ℕ)
    (r : OptRand) (gen : ℕ)
    (st : List (List (String × ℚ)) × WithBot ℚ × List (String × ℚ))
    (w0 : List (String × ℚ)) (hmem : w0 ∈ st.1) :
    ∃ b' : ℚ, (optStep completed population r gen st).2.1 = (b' : WithBot ℚ)
      ∧ _evaluate_fitness w0 completed ≤ b' := by
  rw [optStep]
  cases hs : sortByDesc (fun s => s.1)
      (st.1.map (fun w => (_evaluate_fitness w completed, w))) with
  | nil =>
    exfalso
    have hm : (_evaluate_fitness w0 completed, w0) ∈ sortByDesc (fun s => s.1)
        (st.1.map (fun w => (_evaluate_fitness w completed, w))) :=
      (mem_sortByDesc _ _ _).mpr (List.mem_map_of_mem _ hmem)
    rw [hs] at hm
    exact absurd hm (List.not_mem_nil _)
  | cons s0 tail =>
    have hle : _evaluate_fitness w0 completed ≤ s0.1 := by
      have hm : (_evaluate_fitness w0 completed, w0) ∈ st.1.map
          (fun w => (_evaluate_fitness w completed, w)) :=
        List.mem_map_of_mem _ hmem
      simpa using sortByDesc_head_ge (fun s => s.1) _ s0 tail hs hm
    simp only [optStepAux]
    by_cases hlt : st.2.1 < (s0.1 : WithBot ℚ)
    · rw [if_pos hlt]
      exact ⟨s0.1, rfl, hle⟩
    · rw [if_neg hlt]
      cases hcur : st.2.1 with
      | bot =>
        rw [hcur] at hlt
        exact absurd (WithBot.bot_lt_coe s0.1) hlt
      | coe b =>
        rw [hcur] at hlt
        have hsb : s0.1 ≤ b := by exact_mod_cast not_lt.mp hlt
        exact ⟨b, rfl, le_trans hle hsb⟩

theorem optimize_fold (completed : List SignalRecord) (population : ℕ) (r : OptRand)
    (current : List (String × ℚ)) (pop0 : List (List (String × ℚ)))
    (hmem : current ∈ pop0) (g : ℕ) (rest : List ℕ) :
    ∃ b : ℚ, (((g :: rest).foldl (fun st gen => optStep completed population r gen st)
        (pop0, (⊥ : WithBot ℚ), current)).2.1) = (b : WithBot ℚ)
      ∧ _evaluate_fitness current completed ≤ b := by
  have h1 := optStep_best_establish completed population r g
    (pop0, (⊥ : WithBot ℚ), current) current hmem
  have h2 := foldl_invariant (fun st gen => optStep completed population r gen st)
    (fun st => ∃ b : ℚ, st.2.1 = (b : WithBot ℚ)
      ∧ _evaluate_fitness current completed ≤ b)
    (fun x n hx => optStep_best_preserve completed population r n x _ hx)
    rest _ h1
  simpa using h2

/-- C2: whenever the completed-record count meets `min_records` (and at
least one generation runs, as every caller does), `optimize` returns
`new_fitness ≥ old_fitness`, for every ledger and every outcome of the
optimizer's random choices: the generation-0 population contains the
current weights and the best-ever tracking never decreases. -/
theorem optimize_new_fitness_ge_old (opt : Optimizer) (hist : Ledger)
    (generations population min_records : ℕ) (r : OptRand)
    (hgen : 1 ≤ generations)
    (hmin : min_records ≤ (get_completed_records hist).length) :
    ((optimize opt hist generations population min_records r).1.old_fitness : WithBot ℚ)
      ≤ (optimize opt hist generations population min_records r).1.new_fitness := by
  have hnl : ¬ (get_completed_records hist).length < min_records := not_lt.mpr hmin
  obtain ⟨g', rfl⟩ : ∃ g', generations = g' + 1 := ⟨generations - 1, by omega⟩
  simp only [optimize, if_neg hnl]
  rw [List.range_succ_eq_map]
  obtain ⟨b, hb, hfb⟩ := optimize_fold (get_completed_records hist) population r
    opt.current_weights
    (opt.current_weights :: (List.range (population - 1)).map
      (fun i => _mutate opt.current_weights (r.seedMut i)))
    (List.mem_cons_self _ _) 0 ((List.range g').map Nat.succ)
  rw [hb, WithBot.map_coe, WithBot.coe_le_coe]
  exact roundTo_le_roundTo 4 hfb

/-- Witness for C2: one completed record, one generation, population 1. -/
theorem optimize_new_fitness_ge_old_witness :
    1 ≤ 1 ∧
    1 ≤ (get_completed_records
      ([("m", { mint := "m", outcome := "winner" })] : Ledger)).length ∧
    (((optimize ⟨EXTENDED_WEIGHTS⟩
        ([("m", { mint := "m", outcome := "winner" })] : Ledger) 1 1 1
        ⟨fun _ => ⟨[], fun _ => 1⟩, fun _ _ => 0, fun _ _ => ⟨[], fun _ => 1⟩⟩).1.old_fitness
          : WithBot ℚ)
      ≤ (optimize ⟨EXTENDED_WEIGHTS⟩
        ([("m", { mint := "m", outcome := "winner" })] : Ledger) 1 1 1
        ⟨fun _ => ⟨[], fun _ => 1⟩, fun _ _ => 0, fun _ _ => ⟨[], fun _ => 1⟩⟩).1.new_fitness) :=
  ⟨le_refl 1, by decide,
   optimize_new_fitness_ge_old ⟨EXTENDED_WEIGHTS⟩
     ([("m", { mint := "m", outcome := "winner" })] : Ledger) 1 1 1
     ⟨fun _ => ⟨[], fun _ => 1⟩, fun _ _ => 0, fun _ _ => ⟨[], fun _ => 1⟩⟩
     (le_refl 1) (by decide)⟩

end Backtester
